import Mathlib

/-!
Verification of the chess engine embedded in the chess application
(`ChessAI` in `src/chess/main.py`): board evaluation, depth-limited
minimax with alpha-beta pruning, and the heuristic fallback mover.

The board-representation library (the python-chess collaborator) is
modelled abstractly as a `Rules` structure: the engine only consumes the
provider operations listed in the specification (legal move enumeration,
push/pop, terminal predicates, piece lookup, side to move, capture test),
and the provider is assumed to be a correct chess implementation, which
we record as propositional fields of `Rules`.

Scores are integers extended with the two infinities used by the code
(`float('-inf')` and `float('inf')`), modelled as `WithBot (WithTop ℤ)`.
-/

/-- Search scores: integers together with `-inf` (`⊥`) and `+inf` (`⊤`),
mirroring the Python code's use of `float('-inf')` / `float('inf')` as
sentinels around integer evaluations. -/
abbrev Score : Type := WithBot (WithTop ℤ)

/-- Embed an integer evaluation into the extended score order. -/
def Score.ofInt (n : ℤ) : Score := ((n : WithTop ℤ) : WithBot (WithTop ℤ))

/-- Maximum of a list of scores, starting from `-inf` (the running
maximum a maximizing minimax node folds over its children). -/
def listMax (l : List Score) : Score := l.foldl max ⊥

/-- Minimum of a list of scores, starting from `+inf`. -/
def listMin (l : List Score) : Score := l.foldl min ⊤

/-- The six chess piece types. -/
inductive PieceType : Type
  | pawn
  | knight
  | bishop
  | rook
  | queen
  | king
deriving DecidableEq

/-- A piece: its type and its color (`true` is White, matching
`chess.WHITE = True`). -/
structure Piece : Type where
  pieceType : PieceType
  color : Bool
deriving DecidableEq

/-- The engine's fixed piece value table (`self.piece_values` in
`ChessAI.__init__`). -/
def piece_value : PieceType → ℤ
  | .pawn => 100
  | .knight => 320
  | .bishop => 330
  | .rook => 500
  | .queen => 900
  | .king => 20000

/-- The Rules/Position Provider: the external board library consumed by
the engine (spec section 6).  `Pos` is the opaque position type, `Move`
the move type, `Square` the square type.  The function fields are the
provider operations the engine calls; the propositional fields record
standard facts about a correct chess rules implementation, which the
specification assumes of the provider:
  * popping after a push restores the position (the paired push/pop
    discipline of section 6);
  * checkmate, stalemate and insufficient material each imply game over;
  * a position that is not game over has at least one legal move (in
    chess, a side with no legal moves is checkmated or stalemated);
  * a checkmated position is neither stalemated (stalemate requires the
    side to move not to be in check) nor drawn by insufficient material
    (a mate on the board requires mating material). -/
structure Rules (Pos Move Square : Type) : Type where
  legalMoves : Pos → List Move
  push : Pos → Move → Pos
  pop : Pos → Pos
  turn : Pos → Bool
  isCheckmate : Pos → Bool
  isStalemate : Pos → Bool
  isInsufficientMaterial : Pos → Bool
  isGameOver : Pos → Bool
  isCapture : Pos → Move → Bool
  pieceAt : Pos → Square → Option Piece
  squares : List Square
  toSquare : Move → Square
  d4 : Square
  e4 : Square
  d5 : Square
  e5 : Square
  pop_push : ∀ p m, pop (push p m) = p
  mate_over : ∀ p, isCheckmate p = true → isGameOver p = true
  stale_over : ∀ p, isStalemate p = true → isGameOver p = true
  insuf_over : ∀ p, isInsufficientMaterial p = true → isGameOver p = true
  over_moves : ∀ p, isGameOver p = false → legalMoves p ≠ []
  mate_not_stale : ∀ p, isCheckmate p = true → isStalemate p = false
  mate_not_insuf : ∀ p, isCheckmate p = true → isInsufficientMaterial p = false

namespace ChessAI

variable {Pos Move Square : Type}

/-- `ChessAI.evaluate_board` (src/chess/main.py lines 66-82): mate and
draw sentinels, otherwise signed material over all squares plus twice
the mobility of the side to move, signed by the side to move. -/
def evaluate_board (R : Rules Pos Move Square) (board : Pos) : ℤ :=
  if R.isCheckmate board then (if R.turn board then -10000 else 10000)
  else if R.isStalemate board || R.isInsufficientMaterial board then 0
  else
    let score :=
      (R.squares.map (fun sq =>
        match R.pieceAt board sq with
        | some piece =>
            if piece.color then piece_value piece.pieceType
            else -piece_value piece.pieceType
        | none => 0)).sum
    let mobility : ℤ := ((R.legalMoves board).length : ℤ)
    score + (if R.turn board then mobility * 2 else -(mobility * 2))

/-- The maximizing loop of `ChessAI.minimax` (lines 91-104): fold over
the legal moves, keeping the best score seen, recording a move only on a
strict improvement, raising `alpha`, and breaking when `beta <= alpha`.
`child alpha m` is the score of the recursive call on the position after
`m` with the current window. -/
def maxLoop (child : Score → Move → Score) (beta : Score) :
    Score → List Move → Score → Option Move → Score × Option Move
  | _, [], best, bm => (best, bm)
  | alpha, m :: ms, best, bm =>
    let s := child alpha m
    let best' := if best < s then s else best
    let bm' := if best < s then some m else bm
    let alpha' := max alpha s
    if beta ≤ alpha' then (best', bm')
    else maxLoop child beta alpha' ms best' bm'

/-- The minimizing loop of `ChessAI.minimax` (lines 105-118), symmetric
to `maxLoop`: lowers `beta`, breaks when `beta <= alpha`. -/
def minLoop (child : Score → Move → Score) (alpha : Score) :
    Score → List Move → Score → Option Move → Score × Option Move
  | _, [], best, bm => (best, bm)
  | beta, m :: ms, best, bm =>
    let s := child beta m
    let best' := if s < best then s else best
    let bm' := if s < best then some m else bm
    let beta' := min beta s
    if beta' ≤ alpha then (best', bm')
    else minLoop child alpha beta' ms best' bm'

/-- `ChessAI.minimax` (lines 84-118) at non-negative depth: depth-limited
minimax with alpha-beta pruning.  At depth 0 or on a game-over position
it returns the static evaluation and no move; otherwise it runs the
maximizing or minimizing loop over the provider's legal moves. -/
def minimax (R : Rules Pos Move Square) : Nat → Pos → Score → Score → Bool → Score × Option Move
  | 0, board, _, _, _ => (Score.ofInt (evaluate_board R board), none)
  | d+1, board, alpha, beta, maximizing =>
    if R.isGameOver board then (Score.ofInt (evaluate_board R board), none)
    else if maximizing then
      maxLoop (fun a m => (minimax R d (R.push board m) a beta false).1)
        beta alpha (R.legalMoves board) ⊥ none
    else
      minLoop (fun b m => (minimax R d (R.push board m) alpha b true).1)
        alpha beta (R.legalMoves board) ⊤ none

/-- Trace of the maximizing loop: the prefix of legal moves the loop
actually examines before a pruning cutoff stops it (all of them when no
cutoff fires), each paired with the child score it received, with
`alpha` evolving exactly as in `maxLoop`. -/
def maxRun (child : Score → Move → Score) (beta : Score) :
    Score → List Move → List (Move × Score)
  | _, [] => []
  | alpha, m :: ms =>
    let s := child alpha m
    if beta ≤ max alpha s then [(m, s)]
    else (m, s) :: maxRun child beta (max alpha s) ms

/-- Trace of the minimizing loop, symmetric to `maxRun`. -/
def minRun (child : Score → Move → Score) (alpha : Score) :
    Score → List Move → List (Move × Score)
  | _, [] => []
  | beta, m :: ms =>
    let s := child beta m
    if min beta s ≤ alpha then [(m, s)]
    else (m, s) :: minRun child alpha (min beta s) ms

/-- The maximum score of a run together with the FIRST examined move
that achieved it (later moves that merely tie are ignored). -/
def bestOfRun (t : List (Move × Score)) : Score × Option Move :=
  (listMax (t.map Prod.snd),
   (t.find? (fun p => decide (listMax (t.map Prod.snd) ≤ p.2))).map Prod.fst)

/-- The minimum score of a run together with the FIRST examined move
that achieved it. -/
def worstOfRun (t : List (Move × Score)) : Score × Option Move :=
  (listMin (t.map Prod.snd),
   (t.find? (fun p => decide (p.2 ≤ listMin (t.map Prod.snd)))).map Prod.fst)

/-- Fuelled variant of the maximizing loop, used by the integer-depth
search `minimaxI`: a child call that runs out of fuel propagates
`none`. -/
def maxLoopI (child : Score → Move → Option Score) (beta : Score) :
    Score → List Move → Score → Option Move → Option (Score × Option Move)
  | _, [], best, bm => some (best, bm)
  | alpha, m :: ms, best, bm =>
    match child alpha m with
    | none => none
    | some s =>
      let best' := if best < s then s else best
      let bm' := if best < s then some m else bm
      let alpha' := max alpha s
      if beta ≤ alpha' then some (best', bm')
      else maxLoopI child beta alpha' ms best' bm'

/-- Fuelled variant of the minimizing loop. -/
def minLoopI (child : Score → Move → Option Score) (alpha : Score) :
    Score → List Move → Score → Option Move → Option (Score × Option Move)
  | _, [], best, bm => some (best, bm)
  | beta, m :: ms, best, bm =>
    match child beta m with
    | none => none
    | some s =>
      let best' := if s < best then s else best
      let bm' := if s < best then some m else bm
      let beta' := min beta s
      if beta' ≤ alpha then some (best', bm')
      else minLoopI child alpha beta' ms best' bm'

/-- `ChessAI.minimax` at an arbitrary integer depth, as the Python code
receives it from `get_best_move` (`depth = difficulty + 1` may be zero
or negative).  The code tests `depth == 0` exactly, so a negative depth
keeps recursing until the position is game over; since the abstract
provider does not bound the game length, the model uses explicit fuel
(`none` means the fuel ran out, which has no counterpart in the source
and never occurs for non-negative depths given enough fuel). -/
def minimaxI (R : Rules Pos Move Square) :
    Nat → Pos → ℤ → Score → Score → Bool → Option (Score × Option Move)
  | 0, _, _, _, _, _ => none
  | fuel+1, board, depth, alpha, beta, maximizing =>
    if depth = 0 ∨ R.isGameOver board = true then
      some (Score.ofInt (evaluate_board R board), none)
    else if maximizing then
      maxLoopI (fun a m => (minimaxI R fuel (R.push board m) (depth - 1) a beta false).map Prod.fst)
        beta alpha (R.legalMoves board) ⊥ none
    else
      minLoopI (fun b m => (minimaxI R fuel (R.push board m) (depth - 1) alpha b true).map Prod.fst)
        alpha beta (R.legalMoves board) ⊤ none

/-- `ChessAI.get_random_good_move` (lines 133-144): prefer a random
capture, then a random move to one of the four center squares, then any
random legal move; `none` when there are no legal moves.  `choose`
stands for `random.choice`: an oracle that picks some element of a
nonempty list. -/
def get_random_good_move [DecidableEq Square] (R : Rules Pos Move Square)
    (choose : List Move → Option Move) (board : Pos) : Option Move :=
  let legal_moves := R.legalMoves board
  let captures := legal_moves.filter (fun m => R.isCapture board m)
  if !captures.isEmpty then choose captures
  else
    let center_moves := legal_moves.filter
      (fun m => decide (R.toSquare m ∈ [R.d4, R.e4, R.d5, R.e5]))
    if !center_moves.isEmpty then choose center_moves
    else if !legal_moves.isEmpty then choose legal_moves
    else none

/-- `ChessAI.get_best_move` (lines 120-131): difficulty 1 delegates to
the heuristic mover; any other difficulty runs the search at depth
`difficulty + 1` with the full window and `maximizing = turn`, falling
back to a random legal move (or `none` when there are none) when the
search reports no move.  The outer `Option` is fuel exhaustion of
`minimaxI`, with no counterpart in the source. -/
def get_best_move [DecidableEq Square] (R : Rules Pos Move Square)
    (choose : List Move → Option Move) (difficulty : ℤ) (fuel : Nat) (board : Pos) :
    Option (Option Move) :=
  if difficulty = 1 then some (get_random_good_move R choose board)
  else
    match minimaxI R fuel board (difficulty + 1) ⊥ ⊤ (R.turn board) with
    | none => none
    | some (_, some m) => some (some m)
    | some (_, none) =>
      some (if (R.legalMoves board).isEmpty then none else choose (R.legalMoves board))

/-- The maximizing loop with the position threaded explicitly, mirroring
the mutate-in-place discipline of the source: push the move, search the
child, pop, and only then update the bookkeeping and test the cutoff, so
the pop happens on every exit path including a pruning break. -/
def maxLoopS (R : Rules Pos Move Square)
    (child : Pos → Score → (Score × Option Move) × Pos) (beta : Score) :
    Pos → Score → List Move → Score → Option Move → (Score × Option Move) × Pos
  | board, _, [], best, bm => ((best, bm), board)
  | board, alpha, m :: ms, best, bm =>
    let c := child (R.push board m) alpha
    let board' := R.pop c.2
    let s := c.1.1
    let best' := if best < s then s else best
    let bm' := if best < s then some m else bm
    let alpha' := max alpha s
    if beta ≤ alpha' then ((best', bm'), board')
    else maxLoopS R child beta board' alpha' ms best' bm'

/-- The minimizing loop with the position threaded explicitly. -/
def minLoopS (R : Rules Pos Move Square)
    (child : Pos → Score → (Score × Option Move) × Pos) (alpha : Score) :
    Pos → Score → List Move → Score → Option Move → (Score × Option Move) × Pos
  | board, _, [], best, bm => ((best, bm), board)
  | board, beta, m :: ms, best, bm =>
    let c := child (R.push board m) beta
    let board' := R.pop c.2
    let s := c.1.1
    let best' := if s < best then s else best
    let bm' := if s < best then some m else bm
    let beta' := min beta s
    if beta' ≤ alpha then ((best', bm'), board')
    else minLoopS R child alpha board' beta' ms best' bm'

/-- `ChessAI.minimax` with the mutable position made explicit: the
second component of the result is the position as the search leaves it,
so the push/pop pairing of the source becomes a provable statement. -/
def minimaxS (R : Rules Pos Move Square) :
    Nat → Pos → Score → Score → Bool → (Score × Option Move) × Pos
  | 0, board, _, _, _ => ((Score.ofInt (evaluate_board R board), none), board)
  | d+1, board, alpha, beta, maximizing =>
    if R.isGameOver board then ((Score.ofInt (evaluate_board R board), none), board)
    else if maximizing then
      maxLoopS R (fun b a => minimaxS R d b a beta false)
        beta board alpha (R.legalMoves board) ⊥ none
    else
      minLoopS R (fun b bt => minimaxS R d b alpha bt true)
        alpha board beta (R.legalMoves board) ⊤ none

end ChessAI

/-- Modelled from the spec: the full minimax without pruning that the
specification's alpha-beta equivalence property (section 8) compares the
search against.  At each non-terminal node it takes the exact maximum
(resp. minimum) of all child values, with no window and no cutoff. -/
def specMinimax {Pos Move Square : Type} (R : Rules Pos Move Square) :
    Nat → Pos → Bool → Score
  | 0, board, _ => Score.ofInt (ChessAI.evaluate_board R board)
  | d+1, board, maximizing =>
    if R.isGameOver board then Score.ofInt (ChessAI.evaluate_board R board)
    else if maximizing then
      listMax ((R.legalMoves board).map (fun m => specMinimax R d (R.push board m) false))
    else
      listMin ((R.legalMoves board).map (fun m => specMinimax R d (R.push board m) true))

/-- The fail-soft alpha-beta contract: a score `r` computed inside the
window `(alpha, beta)` relates to the exact minimax value `v` as
follows — failing low gives an upper bound on `v`, failing high gives a
lower bound, and a score strictly inside the window is exact. -/
def ABOk (alpha beta r v : Score) : Prop :=
  (r ≤ alpha → v ≤ r) ∧ (beta ≤ r → r ≤ v) ∧ (alpha < r → r < beta → r = v)

/-- A small concrete rules provider for exercising the engine on closed
inputs: positions are move histories, every game ends after two plies,
and the terminal verdict depends on the parity of the move sum.  It
satisfies all the provider facts recorded in `Rules`. -/
def toyR : Rules (List ℕ) ℕ ℕ where
  legalMoves p :=
    if 2 ≤ p.length then []
    else if p.length = 0 then [0, 1]
    else if p = [1] then [3]
    else [0]
  push p m := p ++ [m]
  pop p := p.dropLast
  turn p := decide (p.length % 2 = 0)
  isCheckmate p := decide (2 ≤ p.length ∧ p.sum % 2 = 0)
  isStalemate p := decide (2 ≤ p.length ∧ p.sum % 2 = 1)
  isInsufficientMaterial _ := false
  isGameOver p := decide (2 ≤ p.length)
  isCapture _ m := decide (m = 1)
  pieceAt p sq :=
    if sq = 0 then some ⟨PieceType.pawn, true⟩
    else if sq = 1 ∧ p.sum % 2 = 1 then some ⟨PieceType.knight, false⟩
    else none
  squares := [0, 1]
  toSquare m := if m = 0 then 2 else 6
  d4 := 2
  e4 := 3
  d5 := 4
  e5 := 5
  pop_push := by intro p m; simp
  mate_over := by
    intro p h
    simp only [decide_eq_true_eq] at h ⊢
    exact h.1
  stale_over := by
    intro p h
    simp only [decide_eq_true_eq] at h ⊢
    exact h.1
  insuf_over := by intro p h; cases h
  over_moves := by
    intro p h
    simp only [decide_eq_false_iff_not] at h
    dsimp only
    rw [if_neg h]
    split
    · simp
    · split
      · simp
      · simp
  mate_not_stale := by
    intro p h
    simp only [decide_eq_true_eq] at h
    simp only [decide_eq_false_iff_not, not_and]
    intro _
    omega
  mate_not_insuf := by intro p _; rfl

/-- The concrete stand-in for `random.choice` used on closed inputs:
pick the head of the list. -/
def toyChoose (l : List ℕ) : Option ℕ := l.head?

theorem toyChoose_valid : ∀ l : List ℕ, l ≠ [] → ∃ m, toyChoose l = some m ∧ m ∈ l := by
  intro l h
  cases l with
  | nil => exact absurd rfl h
  | cons a t => exact ⟨a, rfl, List.mem_cons_self a t⟩

theorem Score.bot_lt_ofInt (n : ℤ) : (⊥ : Score) < Score.ofInt n :=
  WithBot.bot_lt_coe _

theorem Score.ofInt_lt_top (n : ℤ) : Score.ofInt n < (⊤ : Score) := by
  have h : ((n : WithTop ℤ) : WithBot (WithTop ℤ)) < (((⊤ : WithTop ℤ) : WithBot (WithTop ℤ))) :=
    WithBot.coe_lt_coe.mpr (WithTop.coe_lt_top n)
  exact h

theorem Score.bot_lt_top : (⊥ : Score) < (⊤ : Score) :=
  lt_trans (Score.bot_lt_ofInt 0) (Score.ofInt_lt_top 0)

theorem foldl_max_init (l : List Score) : ∀ a b : Score,
    List.foldl max (max a b) l = max a (List.foldl max b l) := by
  induction l with
  | nil => intro a b; rfl
  | cons c l ih =>
    intro a b
    simp only [List.foldl_cons]
    rw [max_assoc, ih]

theorem foldl_min_init (l : List Score) : ∀ a b : Score,
    List.foldl min (min a b) l = min a (List.foldl min b l) := by
  induction l with
  | nil => intro a b; rfl
  | cons c l ih =>
    intro a b
    simp only [List.foldl_cons]
    rw [min_assoc, ih]

theorem listMax_nil : listMax [] = ⊥ := rfl

theorem listMin_nil : listMin [] = ⊤ := rfl

theorem listMax_cons (a : Score) (l : List Score) :
    listMax (a :: l) = max a (listMax l) := by
  show List.foldl max (max ⊥ a) l = max a (List.foldl max ⊥ l)
  rw [max_comm ⊥ a, foldl_max_init]

theorem listMin_cons (a : Score) (l : List Score) :
    listMin (a :: l) = min a (listMin l) := by
  show List.foldl min (min ⊤ a) l = min a (List.foldl min ⊤ l)
  rw [min_comm ⊤ a, foldl_min_init]

theorem le_listMax_of_mem {l : List Score} {a : Score} (h : a ∈ l) :
    a ≤ listMax l := by
  induction l with
  | nil => cases h
  | cons b l ih =>
    rw [listMax_cons]
    rcases List.mem_cons.mp h with h | h
    · subst h; exact le_max_left _ _
    · exact le_trans (ih h) (le_max_right _ _)

theorem listMin_le_of_mem {l : List Score} {a : Score} (h : a ∈ l) :
    listMin l ≤ a := by
  induction l with
  | nil => cases h
  | cons b l ih =>
    rw [listMin_cons]
    rcases List.mem_cons.mp h with h | h
    · subst h; exact min_le_left _ _
    · exact le_trans (min_le_right _ _) (ih h)

theorem if_lt_right_eq_max (a b : Score) : (if a < b then b else a) = max a b := by
  rcases le_or_lt b a with h | h
  · rw [if_neg (not_lt.mpr h), max_eq_left h]
  · rw [if_pos h, max_eq_right h.le]

theorem if_lt_left_eq_min (a b : Score) : (if b < a then b else a) = min a b := by
  rcases le_or_lt a b with h | h
  · rw [if_neg (not_lt.mpr h), min_eq_left h]
  · rw [if_pos h, min_eq_right h.le]

theorem ABOk_self (alpha beta r : Score) : ABOk alpha beta r r :=
  ⟨fun _ => le_refl _, fun _ => le_refl _, fun _ _ => rfl⟩

theorem maxLoop_ab {Move : Type}
    (child : Score → Move → Score) (w : Move → Score) (beta alpha0 : Score)
    (hchild : ∀ a m, a < beta → ABOk a beta (child a m) (w m)) :
    ∀ (ms : List Move) (best : Score) (bm : Option Move) (alpha : Score),
      alpha = max alpha0 best → alpha < beta →
      best ≤ (ChessAI.maxLoop child beta alpha ms best bm).1 ∧
      (ChessAI.maxLoop child beta alpha ms best bm).1
        ≤ max alpha0 (max best (listMax (ms.map w))) ∧
      ((ChessAI.maxLoop child beta alpha ms best bm).1 < beta →
        listMax (ms.map w) ≤ (ChessAI.maxLoop child beta alpha ms best bm).1) := by
  intro ms
  induction ms with
  | nil =>
    intro best bm alpha ha hb
    simp only [ChessAI.maxLoop, List.map_nil, listMax_nil]
    refine ⟨le_refl _, ?_, fun _ => bot_le⟩
    simp only [le_max_iff]
    right; left; exact le_refl _
  | cons m ms ih =>
    intro best bm alpha ha hb
    have hch := hchild alpha m hb
    simp only [ChessAI.maxLoop, List.map_cons, listMax_cons, if_lt_right_eq_max]
    by_cases hcut : beta ≤ max alpha (child alpha m)
    · rw [if_pos hcut]
      have hbs : beta ≤ child alpha m := by
        rcases le_max_iff.mp hcut with h | h
        · exact absurd h (not_le.mpr hb)
        · exact h
      have hsw : child alpha m ≤ w m := hch.2.1 hbs
      refine ⟨le_max_left _ _, ?_, ?_⟩
      · apply max_le
        · simp only [le_max_iff]
          right; left; exact le_refl _
        · simp only [le_max_iff]
          right; right; left; exact hsw
      · intro hlt
        exact absurd hlt (not_lt.mpr (le_trans hbs (le_max_right best _)))
    · rw [if_neg hcut]
      have hmas : max alpha (child alpha m) < beta := not_le.mp hcut
      have hsb : child alpha m < beta := lt_of_le_of_lt (le_max_right _ _) hmas
      have heq' : max alpha (child alpha m) = max alpha0 (max best (child alpha m)) := by
        rw [ha, max_assoc]
      obtain ⟨ih1, ih2, ih3⟩ := ih (max best (child alpha m))
        (if best < child alpha m then some m else bm)
        (max alpha (child alpha m)) heq' hmas
      refine ⟨le_trans (le_max_left _ _) ih1, ?_, ?_⟩
      · refine le_trans ih2 ?_
        apply max_le (le_max_left _ _)
        apply max_le
        · apply max_le
          · simp only [le_max_iff]
            right; left; exact le_refl _
          · by_cases hsa : child alpha m ≤ alpha
            · refine le_trans hsa ?_
              rw [ha]
              apply max_le (le_max_left _ _)
              simp only [le_max_iff]
              right; left; exact le_refl _
            · have hex : child alpha m = w m := hch.2.2 (not_le.mp hsa) hsb
              rw [hex]
              simp only [le_max_iff]
              right; right; left; exact le_refl _
        · simp only [le_max_iff]
          right; right; right; exact le_refl _
      · intro hlt
        have hL := ih3 hlt
        apply max_le ?_ hL
        by_cases hsa : child alpha m ≤ alpha
        · exact le_trans (hch.1 hsa) (le_trans (le_max_right best _) ih1)
        · have hex : child alpha m = w m := hch.2.2 (not_le.mp hsa) hsb
          rw [← hex]
          exact le_trans (le_max_right best _) ih1

theorem minLoop_ab {Move : Type}
    (child : Score → Move → Score) (w : Move → Score) (alpha beta0 : Score)
    (hchild : ∀ b m, alpha < b → ABOk alpha b (child b m) (w m)) :
    ∀ (ms : List Move) (best : Score) (bm : Option Move) (beta : Score),
      beta = min beta0 best → alpha < beta →
      (ChessAI.minLoop child alpha beta ms best bm).1 ≤ best ∧
      min beta0 (min best (listMin (ms.map w)))
        ≤ (ChessAI.minLoop child alpha beta ms best bm).1 ∧
      (alpha < (ChessAI.minLoop child alpha beta ms best bm).1 →
        (ChessAI.minLoop child alpha beta ms best bm).1 ≤ listMin (ms.map w)) := by
  intro ms
  induction ms with
  | nil =>
    intro best bm beta hbeq hb
    simp only [ChessAI.minLoop, List.map_nil, listMin_nil]
    refine ⟨le_refl _, ?_, fun _ => le_top⟩
    simp only [min_le_iff]
    right; left; exact le_refl _
  | cons m ms ih =>
    intro best bm beta hbeq hb
    have hch := hchild beta m hb
    simp only [ChessAI.minLoop, List.map_cons, listMin_cons, if_lt_left_eq_min]
    by_cases hcut : min beta (child beta m) ≤ alpha
    · rw [if_pos hcut]
      have hsa : child beta m ≤ alpha := by
        rcases min_le_iff.mp hcut with h | h
        · exact absurd h (not_le.mpr hb)
        · exact h
      have hws : w m ≤ child beta m := hch.1 hsa
      refine ⟨min_le_left _ _, ?_, ?_⟩
      · apply le_min
        · simp only [min_le_iff]
          right; left; exact le_refl _
        · simp only [min_le_iff]
          right; right; left; exact hws
      · intro hlt
        exact absurd hlt (not_lt.mpr (le_trans (min_le_right best _) hsa))
    · rw [if_neg hcut]
      have hmas : alpha < min beta (child beta m) := not_le.mp hcut
      have hsb : alpha < child beta m := lt_of_lt_of_le hmas (min_le_right _ _)
      have heq' : min beta (child beta m) = min beta0 (min best (child beta m)) := by
        rw [hbeq, min_assoc]
      obtain ⟨ih1, ih2, ih3⟩ := ih (min best (child beta m))
        (if child beta m < best then some m else bm)
        (min beta (child beta m)) heq' hmas
      refine ⟨le_trans ih1 (min_le_left _ _), ?_, ?_⟩
      · refine le_trans ?_ ih2
        apply le_min (min_le_left _ _)
        apply le_min
        · apply le_min
          · simp only [min_le_iff]
            right; left; exact le_refl _
          · by_cases hbs : beta ≤ child beta m
            · refine le_trans ?_ hbs
              rw [hbeq]
              apply le_min (min_le_left _ _)
              simp only [min_le_iff]
              right; left; exact le_refl _
            · have hex : child beta m = w m := hch.2.2 hsb (not_le.mp hbs)
              rw [hex]
              simp only [min_le_iff]
              right; right; left; exact le_refl _
        · simp only [min_le_iff]
          right; right; right; exact le_refl _
      · intro hlt
        have hL := ih3 hlt
        apply le_min ?_ hL
        by_cases hbs : beta ≤ child beta m
        · exact le_trans (le_trans ih1 (min_le_right best _)) (hch.2.1 hbs)
        · have hex : child beta m = w m := hch.2.2 hsb (not_le.mp hbs)
          rw [← hex]
          exact le_trans ih1 (min_le_right best _)

theorem minimax_ab {Pos Move Square : Type} (R : Rules Pos Move Square) :
    ∀ (d : Nat) (board : Pos) (alpha beta : Score) (maximizing : Bool),
      alpha < beta →
      ABOk alpha beta (ChessAI.minimax R d board alpha beta maximizing).1
        (specMinimax R d board maximizing) := by
  intro d
  induction d with
  | zero =>
    intro board alpha beta mz hab
    simp only [ChessAI.minimax, specMinimax]
    exact ABOk_self _ _ _
  | succ d ih =>
    intro board alpha beta mz hab
    by_cases hov : R.isGameOver board
    · simp only [ChessAI.minimax, specMinimax, if_pos hov]
      exact ABOk_self _ _ _
    · simp only [ChessAI.minimax, specMinimax, if_neg hov]
      cases mz with
      | true =>
        rw [if_pos rfl, if_pos rfl]
        obtain ⟨h1, h2, h3⟩ := maxLoop_ab
          (fun a m => (ChessAI.minimax R d (R.push board m) a beta false).1)
          (fun m => specMinimax R d (R.push board m) false)
          beta alpha
          (fun a m hax => ih (R.push board m) a beta false hax)
          (R.legalMoves board) ⊥ none alpha (by rw [max_eq_left bot_le]) hab
        rw [max_eq_right bot_le] at h2
        refine ⟨?_, ?_, ?_⟩
        · intro hra
          exact h3 (lt_of_le_of_lt hra hab)
        · intro hbr
          rcases le_max_iff.mp h2 with h | h
          · exact absurd (lt_of_lt_of_le hab hbr) (not_lt.mpr h)
          · exact h
        · intro har hrb
          have hL := h3 hrb
          rcases le_max_iff.mp h2 with h | h
          · exact absurd har (not_lt.mpr h)
          · exact le_antisymm h hL
      | false =>
        rw [if_neg Bool.false_ne_true, if_neg Bool.false_ne_true]
        obtain ⟨h1, h2, h3⟩ := minLoop_ab
          (fun b m => (ChessAI.minimax R d (R.push board m) alpha b true).1)
          (fun m => specMinimax R d (R.push board m) true)
          alpha beta
          (fun b m hax => ih (R.push board m) alpha b true hax)
          (R.legalMoves board) ⊤ none beta ((min_eq_left le_top).symm) hab
        rw [min_eq_right le_top] at h2
        refine ⟨?_, ?_, ?_⟩
        · intro hra
          rcases min_le_iff.mp h2 with h | h
          · exact absurd (lt_of_le_of_lt hra hab) (not_lt.mpr h)
          · exact h
        · intro hbr
          exact h3 (lt_of_lt_of_le hab hbr)
        · intro har hrb
          have hL := h3 har
          rcases min_le_iff.mp h2 with h | h
          · exact absurd hrb (not_lt.mpr h)
          · exact le_antisymm hL h

/-- C1: for every position and fixed depth, the score returned by the
alpha-beta search called at the root with the full window
(`alpha = -inf`, `beta = +inf`) equals the score of the full minimax
without pruning at the same depth, for either value of the maximizing
flag. -/
theorem c1_search_score_eq_full_minimax {Pos Move Square : Type}
    (R : Rules Pos Move Square) (d : Nat) (board : Pos) (maximizing : Bool) :
    (ChessAI.minimax R d board ⊥ ⊤ maximizing).1 = specMinimax R d board maximizing := by
  obtain ⟨h1, h2, h3⟩ := minimax_ab R d board ⊥ ⊤ maximizing Score.bot_lt_top
  rcases le_or_lt (ChessAI.minimax R d board ⊥ ⊤ maximizing).1 ⊥ with hle | hgt
  · rw [le_bot_iff.mp hle, le_bot_iff.mp (le_trans (h1 hle) hle)]
  · rcases le_or_lt ⊤ (ChessAI.minimax R d board ⊥ ⊤ maximizing).1 with hge | hlt
    · rw [top_le_iff.mp hge, top_le_iff.mp (le_trans hge (h2 hge))]
    · exact h3 hgt hlt

theorem listMax_singleton (a : Score) : listMax [a] = a := by
  rw [listMax_cons, listMax_nil, max_eq_left bot_le]

theorem listMin_singleton (a : Score) : listMin [a] = a := by
  rw [listMin_cons, listMin_nil, min_eq_left le_top]

theorem maxLoop_run {Move : Type} (child : Score → Move → Score) (beta : Score) :
    ∀ (ms : List Move) (alpha best : Score) (bm : Option Move),
      ChessAI.maxLoop child beta alpha ms best bm =
        (max best (listMax ((ChessAI.maxRun child beta alpha ms).map Prod.snd)),
         if listMax ((ChessAI.maxRun child beta alpha ms).map Prod.snd) ≤ best then bm
         else ((ChessAI.maxRun child beta alpha ms).find?
            (fun p => decide (listMax ((ChessAI.maxRun child beta alpha ms).map Prod.snd) ≤ p.2))).map
              Prod.fst) := by
  intro ms
  induction ms with
  | nil =>
    intro alpha best bm
    show (best, bm) = _
    rw [show ChessAI.maxRun child beta alpha [] = [] from rfl]
    simp only [List.map_nil, listMax_nil]
    rw [max_eq_left bot_le, if_pos bot_le]
  | cons m ms ih =>
    intro alpha best bm
    by_cases hcut : beta ≤ max alpha (child alpha m)
    · rw [show ChessAI.maxRun child beta alpha (m :: ms) = [(m, child alpha m)] from by
        simp only [ChessAI.maxRun]; rw [if_pos hcut]]
      simp only [ChessAI.maxLoop, if_lt_right_eq_max]
      rw [if_pos hcut]
      simp only [List.map_cons, List.map_nil, listMax_singleton]
      congr 1
      rcases le_or_lt (child alpha m) best with h | h
      · rw [if_neg (not_lt.mpr h), if_pos h]
      · rw [if_pos h, if_neg (not_le.mpr h)]
        rw [List.find?_cons_of_pos _ (by simp)]
        rfl
    · have hrun : ChessAI.maxRun child beta alpha (m :: ms)
          = (m, child alpha m) :: ChessAI.maxRun child beta (max alpha (child alpha m)) ms := by
        simp only [ChessAI.maxRun]
        rw [if_neg hcut]
      rw [hrun]
      simp only [ChessAI.maxLoop, if_lt_right_eq_max]
      rw [if_neg hcut, ih]
      simp only [List.map_cons, listMax_cons]
      set s := child alpha m with hs
      set t := ChessAI.maxRun child beta (max alpha s) ms with ht
      set M := listMax (t.map Prod.snd) with hM
      congr 1
      · rw [max_assoc]
      · rcases le_or_lt (max s M) best with hMb | hMb
        · have hsb : s ≤ best := le_trans (le_max_left _ _) hMb
          have hMbest : M ≤ best := le_trans (le_max_right _ _) hMb
          rw [if_pos hMb, if_pos (le_trans hMbest (le_max_left best s)),
            if_neg (not_lt.mpr hsb)]
        · rw [if_neg (not_le.mpr hMb)]
          rcases le_or_lt M s with hMs | hMs
          · have hmax : max s M = s := max_eq_left hMs
            have hbs : best < s := by
              rcases lt_max_iff.mp hMb with h | h
              · exact h
              · exact lt_of_lt_of_le h hMs
            rw [if_pos (le_trans hMs (le_max_right best s)), if_pos hbs]
            simp only [hmax]
            rw [List.find?_cons_of_pos _ (by simp)]
            rfl
          · have hmax : max s M = M := max_eq_right hMs.le
            have hMbest2 : ¬ M ≤ max best s := by
              intro hc
              rcases le_max_iff.mp hc with h | h
              · exact absurd (lt_of_lt_of_le hMb (le_of_eq hmax)) (not_lt.mpr h)
              · exact absurd hMs (not_lt.mpr h)
            rw [if_neg hMbest2]
            simp only [hmax]
            rw [List.find?_cons_of_neg _ (by simp [not_le.mpr hMs])]

theorem minLoop_run {Move : Type} (child : Score → Move → Score) (alpha : Score) :
    ∀ (ms : List Move) (beta best : Score) (bm : Option Move),
      ChessAI.minLoop child alpha beta ms best bm =
        (min best (listMin ((ChessAI.minRun child alpha beta ms).map Prod.snd)),
         if best ≤ listMin ((ChessAI.minRun child alpha beta ms).map Prod.snd) then bm
         else ((ChessAI.minRun child alpha beta ms).find?
            (fun p => decide (p.2 ≤ listMin ((ChessAI.minRun child alpha beta ms).map Prod.snd)))).map
              Prod.fst) := by
  intro ms
  induction ms with
  | nil =>
    intro beta best bm
    show (best, bm) = _
    rw [show ChessAI.minRun child alpha beta [] = [] from rfl]
    simp only [List.map_nil, listMin_nil]
    rw [min_eq_left le_top, if_pos le_top]
  | cons m ms ih =>
    intro beta best bm
    by_cases hcut : min beta (child beta m) ≤ alpha
    · rw [show ChessAI.minRun child alpha beta (m :: ms) = [(m, child beta m)] from by
        simp only [ChessAI.minRun]; rw [if_pos hcut]]
      simp only [ChessAI.minLoop, if_lt_left_eq_min]
      rw [if_pos hcut]
      simp only [List.map_cons, List.map_nil, listMin_singleton]
      congr 1
      rcases le_or_lt best (child beta m) with h | h
      · rw [if_neg (not_lt.mpr h), if_pos h]
      · rw [if_pos h, if_neg (not_le.mpr h)]
        rw [List.find?_cons_of_pos _ (by simp)]
        rfl
    · have hrun : ChessAI.minRun child alpha beta (m :: ms)
          = (m, child beta m) :: ChessAI.minRun child alpha (min beta (child beta m)) ms := by
        simp only [ChessAI.minRun]
        rw [if_neg hcut]
      rw [hrun]
      simp only [ChessAI.minLoop, if_lt_left_eq_min]
      rw [if_neg hcut, ih]
      simp only [List.map_cons, listMin_cons]
      set s := child beta m with hs
      set t := ChessAI.minRun child alpha (min beta s) ms with ht
      set M := listMin (t.map Prod.snd) with hM
      congr 1
      · rw [min_assoc]
      · rcases le_or_lt best (min s M) with hMb | hMb
        · have hsb : best ≤ s := le_trans hMb (min_le_left _ _)
          have hMbest : best ≤ M := le_trans hMb (min_le_right _ _)
          rw [if_pos hMb, if_pos (le_trans (min_le_left best s) hMbest),
            if_neg (not_lt.mpr hsb)]
        · rw [if_neg (not_le.mpr hMb)]
          rcases le_or_lt s M with hMs | hMs
          · have hmin : min s M = s := min_eq_left hMs
            have hbs : s < best := by
              rcases min_lt_iff.mp hMb with h | h
              · exact h
              · exact lt_of_le_of_lt hMs h
            rw [if_pos (le_trans (min_le_right best s) hMs), if_pos hbs]
            simp only [hmin]
            rw [List.find?_cons_of_pos _ (by simp)]
            rfl
          · have hmin : min s M = M := min_eq_right hMs.le
            have hMbest2 : ¬ min best s ≤ M := by
              intro hc
              rcases min_le_iff.mp hc with h | h
              · exact absurd (lt_of_le_of_lt (le_of_eq hmin.symm) hMb) (not_lt.mpr h)
              · exact absurd hMs (not_lt.mpr h)
            rw [if_neg hMbest2]
            simp only [hmin]
            rw [List.find?_cons_of_neg _ (by simp [not_le.mpr hMs])]

theorem maxLoopI_some_of {Move : Type} (childI : Score → Move → Option Score)
    (childP : Score → Move → Score) (beta : Score)
    (hch : ∀ a m, childI a m = some (childP a m)) :
    ∀ (ms : List Move) (alpha best : Score) (bm : Option Move),
      ChessAI.maxLoopI childI beta alpha ms best bm
        = some (ChessAI.maxLoop childP beta alpha ms best bm) := by
  intro ms
  induction ms with
  | nil => intro alpha best bm; rfl
  | cons m ms ih =>
    intro alpha best bm
    simp only [ChessAI.maxLoopI, ChessAI.maxLoop, hch]
    by_cases hcut : beta ≤ max alpha (childP alpha m)
    · rw [if_pos hcut, if_pos hcut]
    · rw [if_neg hcut, if_neg hcut, ih]

theorem minLoopI_some_of {Move : Type} (childI : Score → Move → Option Score)
    (childP : Score → Move → Score) (alpha : Score)
    (hch : ∀ b m, childI b m = some (childP b m)) :
    ∀ (ms : List Move) (beta best : Score) (bm : Option Move),
      ChessAI.minLoopI childI alpha beta ms best bm
        = some (ChessAI.minLoop childP alpha beta ms best bm) := by
  intro ms
  induction ms with
  | nil => intro beta best bm; rfl
  | cons m ms ih =>
    intro beta best bm
    simp only [ChessAI.minLoopI, ChessAI.minLoop, hch]
    by_cases hcut : min beta (childP beta m) ≤ alpha
    · rw [if_pos hcut, if_pos hcut]
    · rw [if_neg hcut, if_neg hcut, ih]

theorem minimaxI_eq_minimax {Pos Move Square : Type} (R : Rules Pos Move Square) :
    ∀ (d fuel : Nat), d < fuel → ∀ (board : Pos) (alpha beta : Score) (mz : Bool),
      ChessAI.minimaxI R fuel board (d : ℤ) alpha beta mz
        = some (ChessAI.minimax R d board alpha beta mz) := by
  intro d
  induction d with
  | zero =>
    intro fuel hf board alpha beta mz
    obtain ⟨f, rfl⟩ : ∃ f, fuel = f + 1 := ⟨fuel - 1, by omega⟩
    simp only [ChessAI.minimaxI, ChessAI.minimax, Nat.cast_zero]
    rw [if_pos (Or.inl trivial)]
  | succ d ih =>
    intro fuel hf board alpha beta mz
    obtain ⟨f, rfl⟩ : ∃ f, fuel = f + 1 := ⟨fuel - 1, by omega⟩
    have hdf : d < f := by omega
    have hcast : ((d + 1 : ℕ) : ℤ) - 1 = (d : ℤ) := by push_cast; ring
    by_cases hov : R.isGameOver board = true
    · simp only [ChessAI.minimaxI, ChessAI.minimax]
      rw [if_pos (Or.inr hov), if_pos hov]
    · simp only [ChessAI.minimaxI, ChessAI.minimax, hcast]
      rw [if_neg (not_or.mpr ⟨by exact_mod_cast Nat.succ_ne_zero d, hov⟩), if_neg hov]
      cases mz with
      | true =>
        rw [if_pos rfl, if_pos rfl]
        exact maxLoopI_some_of _ _ beta
          (fun a m => by rw [ih f hdf (R.push board m) a beta false]; rfl) _ alpha ⊥ none
      | false =>
        rw [if_neg Bool.false_ne_true, if_neg Bool.false_ne_true]
        exact minLoopI_some_of _ _ alpha
          (fun b m => by rw [ih f hdf (R.push board m) alpha b true]; rfl) _ beta ⊤ none

theorem maxLoopI_keep {Move : Type} (childI : Score → Move → Option Score) (beta : Score)
    (hch : ∀ a m s, childI a m = some s → ∃ n, s = Score.ofInt n) :
    ∀ (ms : List Move) (alpha best : Score) (bm : Option Move) (r : Score × Option Move),
      ChessAI.maxLoopI childI beta alpha ms best bm = some r →
      (∃ n, best = Score.ofInt n) → bm.isSome → (∃ n, r.1 = Score.ofInt n) ∧ r.2.isSome := by
  intro ms
  induction ms with
  | nil =>
    intro alpha best bm r h hb hm
    injection h with h
    rw [← h]
    exact ⟨hb, hm⟩
  | cons m ms ih =>
    intro alpha best bm r h hb hm
    simp only [ChessAI.maxLoopI] at h
    split at h
    · cases h
    · rename_i s hc
      obtain ⟨n, rfl⟩ := hch alpha m s hc
      have hb' : ∃ k, (if best < Score.ofInt n then Score.ofInt n else best) = Score.ofInt k := by
        by_cases hlt : best < Score.ofInt n
        · rw [if_pos hlt]; exact ⟨n, rfl⟩
        · rw [if_neg hlt]; exact hb
      have hm' : (if best < Score.ofInt n then some m else bm).isSome := by
        by_cases hlt : best < Score.ofInt n
        · rw [if_pos hlt]; rfl
        · rw [if_neg hlt]; exact hm
      split at h
      · injection h with h
        rw [← h]
        exact ⟨hb', hm'⟩
      · exact ih _ _ _ _ h hb' hm'

theorem minLoopI_keep {Move : Type} (childI : Score → Move → Option Score) (alpha : Score)
    (hch : ∀ b m s, childI b m = some s → ∃ n, s = Score.ofInt n) :
    ∀ (ms : List Move) (beta best : Score) (bm : Option Move) (r : Score × Option Move),
      ChessAI.minLoopI childI alpha beta ms best bm = some r →
      (∃ n, best = Score.ofInt n) → bm.isSome → (∃ n, r.1 = Score.ofInt n) ∧ r.2.isSome := by
  intro ms
  induction ms with
  | nil =>
    intro beta best bm r h hb hm
    injection h with h
    rw [← h]
    exact ⟨hb, hm⟩
  | cons m ms ih =>
    intro beta best bm r h hb hm
    simp only [ChessAI.minLoopI] at h
    split at h
    · cases h
    · rename_i s hc
      obtain ⟨n, rfl⟩ := hch beta m s hc
      have hb' : ∃ k, (if Score.ofInt n < best then Score.ofInt n else best) = Score.ofInt k := by
        by_cases hlt : Score.ofInt n < best
        · rw [if_pos hlt]; exact ⟨n, rfl⟩
        · rw [if_neg hlt]; exact hb
      have hm' : (if Score.ofInt n < best then some m else bm).isSome := by
        by_cases hlt : Score.ofInt n < best
        · rw [if_pos hlt]; rfl
        · rw [if_neg hlt]; exact hm
      split at h
      · injection h with h
        rw [← h]
        exact ⟨hb', hm'⟩
      · exact ih _ _ _ _ h hb' hm'

theorem maxLoopI_start {Move : Type} (childI : Score → Move → Option Score) (beta : Score)
    (hch : ∀ a m s, childI a m = some s → ∃ n, s = Score.ofInt n) :
    ∀ (m : Move) (ms : List Move) (alpha : Score) (r : Score × Option Move),
      ChessAI.maxLoopI childI beta alpha (m :: ms) ⊥ none = some r →
      (∃ n, r.1 = Score.ofInt n) ∧ r.2.isSome := by
  intro m ms alpha r h
  simp only [ChessAI.maxLoopI] at h
  split at h
  · cases h
  · rename_i s hc
    obtain ⟨n, rfl⟩ := hch alpha m s hc
    rw [if_pos (Score.bot_lt_ofInt n)] at h
    split at h
    · injection h with h
      rw [← h]
      exact ⟨⟨n, rfl⟩, rfl⟩
    · exact maxLoopI_keep childI beta hch _ _ _ _ _ h ⟨n, rfl⟩ rfl

theorem minLoopI_start {Move : Type} (childI : Score → Move → Option Score) (alpha : Score)
    (hch : ∀ b m s, childI b m = some s → ∃ n, s = Score.ofInt n) :
    ∀ (m : Move) (ms : List Move) (beta : Score) (r : Score × Option Move),
      ChessAI.minLoopI childI alpha beta (m :: ms) ⊤ none = some r →
      (∃ n, r.1 = Score.ofInt n) ∧ r.2.isSome := by
  intro m ms beta r h
  simp only [ChessAI.minLoopI] at h
  split at h
  · cases h
  · rename_i s hc
    obtain ⟨n, rfl⟩ := hch beta m s hc
    rw [if_pos (Score.ofInt_lt_top n)] at h
    split at h
    · injection h with h
      rw [← h]
      exact ⟨⟨n, rfl⟩, rfl⟩
    · exact minLoopI_keep childI alpha hch _ _ _ _ _ h ⟨n, rfl⟩ rfl

theorem minimaxI_inv {Pos Move Square : Type} (R : Rules Pos Move Square) :
    ∀ (fuel : Nat) (board : Pos) (depth : ℤ) (alpha beta : Score) (mz : Bool)
      (r : Score × Option Move),
      ChessAI.minimaxI R fuel board depth alpha beta mz = some r →
      (∃ n, r.1 = Score.ofInt n) ∧
      (¬(depth = 0 ∨ R.isGameOver board = true) → r.2.isSome) := by
  intro fuel
  induction fuel with
  | zero => intro board depth alpha beta mz r h; cases h
  | succ f ih =>
    intro board depth alpha beta mz r h
    by_cases hleaf : depth = 0 ∨ R.isGameOver board = true
    · simp only [ChessAI.minimaxI] at h
      rw [if_pos hleaf] at h
      injection h with h
      rw [← h]
      exact ⟨⟨_, rfl⟩, fun hn => absurd hleaf hn⟩
    · simp only [ChessAI.minimaxI] at h
      rw [if_neg hleaf] at h
      have hov : R.isGameOver board = false :=
        Bool.eq_false_iff.mpr (not_or.mp hleaf).2
      obtain ⟨m, ms, hms⟩ : ∃ m ms, R.legalMoves board = m :: ms := by
        cases hl : R.legalMoves board with
        | nil => exact absurd hl (R.over_moves board hov)
        | cons a l => exact ⟨a, l, rfl⟩
      rw [hms] at h
      cases mz with
      | true =>
        rw [if_pos rfl] at h
        have hres := maxLoopI_start
          (fun a mv => (ChessAI.minimaxI R f (R.push board mv) (depth - 1) a beta false).map Prod.fst)
          beta
          (fun a mv s hs => by
            obtain ⟨pr, hpr, hfst⟩ := Option.map_eq_some'.mp hs
            obtain ⟨⟨n, hn⟩, _⟩ := ih (R.push board mv) (depth - 1) a beta false pr hpr
            exact ⟨n, by rw [← hfst, hn]⟩)
          m ms alpha r h
        exact ⟨hres.1, fun _ => hres.2⟩
      | false =>
        rw [if_neg Bool.false_ne_true] at h
        have hres := minLoopI_start
          (fun b mv => (ChessAI.minimaxI R f (R.push board mv) (depth - 1) alpha b true).map Prod.fst)
          alpha
          (fun b mv s hs => by
            obtain ⟨pr, hpr, hfst⟩ := Option.map_eq_some'.mp hs
            obtain ⟨⟨n, hn⟩, _⟩ := ih (R.push board mv) (depth - 1) alpha b true pr hpr
            exact ⟨n, by rw [← hfst, hn]⟩)
          m ms beta r h
        exact ⟨hres.1, fun _ => hres.2⟩

theorem minimax_fst_ofInt {Pos Move Square : Type} (R : Rules Pos Move Square)
    (d : Nat) (board : Pos) (alpha beta : Score) (mz : Bool) :
    ∃ n, (ChessAI.minimax R d board alpha beta mz).1 = Score.ofInt n :=
  (minimaxI_inv R (d+1) board (d : ℤ) alpha beta mz _
    (minimaxI_eq_minimax R d (d+1) (by omega) board alpha beta mz)).1

theorem minimax_snd_isSome {Pos Move Square : Type} (R : Rules Pos Move Square)
    (d : Nat) (board : Pos) (alpha beta : Score) (mz : Bool)
    (hov : R.isGameOver board = false) :
    (ChessAI.minimax R (d+1) board alpha beta mz).2.isSome := by
  refine (minimaxI_inv R (d+2) board ((d+1 : ℕ) : ℤ) alpha beta mz _
    (minimaxI_eq_minimax R (d+1) (d+2) (by omega) board alpha beta mz)).2 ?_
  rintro (h0 | hgo)
  · exact absurd h0 (by exact_mod_cast Nat.succ_ne_zero d)
  · rw [hov] at hgo; cases hgo

theorem maxLoopS_spec {Pos Move Square : Type} (R : Rules Pos Move Square)
    (child : Pos → Score → (Score × Option Move) × Pos)
    (g : Pos → Score → Score × Option Move)
    (hchild : ∀ b a, child b a = (g b a, b)) (beta : Score) :
    ∀ (ms : List Move) (board : Pos) (alpha best : Score) (bm : Option Move),
      ChessAI.maxLoopS R child beta board alpha ms best bm
        = (ChessAI.maxLoop (fun a m => (g (R.push board m) a).1) beta alpha ms best bm,
           board) := by
  intro ms
  induction ms with
  | nil => intro board alpha best bm; rfl
  | cons m ms ih =>
    intro board alpha best bm
    simp only [ChessAI.maxLoopS, ChessAI.maxLoop, hchild, R.pop_push]
    by_cases hcut : beta ≤ max alpha ((g (R.push board m) alpha).1)
    · rw [if_pos hcut, if_pos hcut]
    · rw [if_neg hcut, if_neg hcut, ih]

theorem minLoopS_spec {Pos Move Square : Type} (R : Rules Pos Move Square)
    (child : Pos → Score → (Score × Option Move) × Pos)
    (g : Pos → Score → Score × Option Move)
    (hchild : ∀ b bt, child b bt = (g b bt, b)) (alpha : Score) :
    ∀ (ms : List Move) (board : Pos) (beta best : Score) (bm : Option Move),
      ChessAI.minLoopS R child alpha board beta ms best bm
        = (ChessAI.minLoop (fun bt m => (g (R.push board m) bt).1) alpha beta ms best bm,
           board) := by
  intro ms
  induction ms with
  | nil => intro board beta best bm; rfl
  | cons m ms ih =>
    intro board beta best bm
    simp only [ChessAI.minLoopS, ChessAI.minLoop, hchild, R.pop_push]
    by_cases hcut : min beta ((g (R.push board m) beta).1) ≤ alpha
    · rw [if_pos hcut, if_pos hcut]
    · rw [if_neg hcut, if_neg hcut, ih]

theorem minimaxS_spec {Pos Move Square : Type} (R : Rules Pos Move Square) :
    ∀ (d : Nat) (board : Pos) (alpha beta : Score) (mz : Bool),
      ChessAI.minimaxS R d board alpha beta mz
        = (ChessAI.minimax R d board alpha beta mz, board) := by
  intro d
  induction d with
  | zero => intro board alpha beta mz; rfl
  | succ d ih =>
    intro board alpha beta mz
    by_cases hov : R.isGameOver board
    · simp only [ChessAI.minimaxS, ChessAI.minimax, if_pos hov]
    · simp only [ChessAI.minimaxS, ChessAI.minimax, if_neg hov]
      cases mz with
      | true =>
        rw [if_pos rfl, if_pos rfl]
        exact maxLoopS_spec R _ (fun b a => ChessAI.minimax R d b a beta false)
          (fun b a => ih b a beta false) beta _ board alpha ⊥ none
      | false =>
        rw [if_neg Bool.false_ne_true, if_neg Bool.false_ne_true]
        exact minLoopS_spec R _ (fun b bt => ChessAI.minimax R d b alpha bt true)
          (fun b bt => ih b alpha bt true) alpha _ board beta ⊤ none

/-- C7: a completed search leaves the position exactly as it found it.
In the state-threaded model of the source's mutate-in-place discipline,
every pushed move is popped before the frame returns on every exit path,
including a pruning cutoff, so `minimaxS` hands back the original
position unchanged (and its score and move agree with the pure
search; `evaluate_board` is a pure function of the position). -/
theorem c7_search_restores_position {Pos Move Square : Type} (R : Rules Pos Move Square)
    (d : Nat) (board : Pos) (alpha beta : Score) (mz : Bool) :
    ChessAI.minimaxS R d board alpha beta mz
      = (ChessAI.minimax R d board alpha beta mz, board) :=
  minimaxS_spec R d board alpha beta mz

/-- C2: `evaluate_board` returns exactly -10000 on checkmate with White
to move and 10000 on checkmate with Black to move; 0 on stalemate or
insufficient material; otherwise the sum over all squares of the signed
piece value plus 2 times the number of legal moves of the side to move,
added when White is to move and subtracted when Black is to move. -/
theorem c2_evaluate_board_spec {Pos Move Square : Type} (R : Rules Pos Move Square)
    (board : Pos) :
    (R.isCheckmate board = true → R.turn board = true →
      ChessAI.evaluate_board R board = -10000) ∧
    (R.isCheckmate board = true → R.turn board = false →
      ChessAI.evaluate_board R board = 10000) ∧
    (R.isStalemate board = true ∨ R.isInsufficientMaterial board = true →
      ChessAI.evaluate_board R board = 0) ∧
    (R.isCheckmate board = false → R.isStalemate board = false →
      R.isInsufficientMaterial board = false →
      ChessAI.evaluate_board R board =
        (R.squares.map (fun sq =>
          match R.pieceAt board sq with
          | some piece =>
              if piece.color then piece_value piece.pieceType
              else -piece_value piece.pieceType
          | none => 0)).sum
        + (if R.turn board then 2 * ((R.legalMoves board).length : ℤ)
           else -(2 * ((R.legalMoves board).length : ℤ)))) := by
  refine ⟨?_, ?_, ?_, ?_⟩
  · intro hm ht
    simp [ChessAI.evaluate_board, hm, ht]
  · intro hm ht
    simp [ChessAI.evaluate_board, hm, ht]
  · intro hd
    have hm : R.isCheckmate board = false := by
      by_cases hc : R.isCheckmate board = true
      · rcases hd with h | h
        · exact absurd h (Bool.eq_false_iff.mp (R.mate_not_stale board hc))
        · exact absurd h (Bool.eq_false_iff.mp (R.mate_not_insuf board hc))
      · exact Bool.eq_false_iff.mpr hc
    rcases hd with h | h
    · simp [ChessAI.evaluate_board, hm, h]
    · simp [ChessAI.evaluate_board, hm, h]
  · intro hm hs hi
    by_cases ht : R.turn board = true
    · simp only [ChessAI.evaluate_board, hm, hs, hi, ht, Bool.false_or, if_pos, if_neg,
        Bool.false_eq_true, if_false, if_true]
      ring
    · have hf : R.turn board = false := Bool.eq_false_iff.mpr ht
      simp only [ChessAI.evaluate_board, hm, hs, hi, hf, Bool.false_or,
        Bool.false_eq_true, if_false]
      ring

/-- C4: at depth 0, and on any position that is checkmate, stalemate,
drawn by insufficient material, or otherwise game over, the search
returns the static evaluation paired with no move, for any window and
either maximizing flag. -/
theorem c4_search_leaf {Pos Move Square : Type} (R : Rules Pos Move Square)
    (d : Nat) (board : Pos) (alpha beta : Score) (mz : Bool)
    (h : d = 0 ∨ R.isCheckmate board = true ∨ R.isStalemate board = true ∨
      R.isInsufficientMaterial board = true ∨ R.isGameOver board = true) :
    ChessAI.minimax R d board alpha beta mz
      = (Score.ofInt (ChessAI.evaluate_board R board), none) := by
  cases d with
  | zero => rfl
  | succ d =>
    have hov : R.isGameOver board = true := by
      rcases h with h | h | h | h | h
      · exact absurd h (Nat.succ_ne_zero d)
      · exact R.mate_over board h
      · exact R.stale_over board h
      · exact R.insuf_over board h
      · exact h
    simp only [ChessAI.minimax, if_pos hov]

theorem maxRun_head_mem {Move : Type} (child : Score → Move → Score) (beta alpha : Score)
    (m : Move) (ms : List Move) :
    (m, child alpha m) ∈ ChessAI.maxRun child beta alpha (m :: ms) := by
  simp only [ChessAI.maxRun]
  split
  · exact List.mem_singleton.mpr rfl
  · exact List.mem_cons_self _ _

theorem minRun_head_mem {Move : Type} (child : Score → Move → Score) (alpha beta : Score)
    (m : Move) (ms : List Move) :
    (m, child beta m) ∈ ChessAI.minRun child alpha beta (m :: ms) := by
  simp only [ChessAI.minRun]
  split
  · exact List.mem_singleton.mpr rfl
  · exact List.mem_cons_self _ _

/-- C5: for a search of depth at least 1 on a non-terminal position, the
returned score is the best of the child scores the loop examined, and
the returned move is the FIRST examined move whose child score achieved
it — the recorded move is replaced only on a strictly better child
score, so a child that merely ties never replaces the earlier move. -/
theorem c5_first_best_move {Pos Move Square : Type} (R : Rules Pos Move Square)
    (d : Nat) (board : Pos) (alpha beta : Score)
    (hov : R.isGameOver board = false) :
    ChessAI.minimax R (d+1) board alpha beta true
      = ChessAI.bestOfRun (ChessAI.maxRun
          (fun a m => (ChessAI.minimax R d (R.push board m) a beta false).1)
          beta alpha (R.legalMoves board)) ∧
    ChessAI.minimax R (d+1) board alpha beta false
      = ChessAI.worstOfRun (ChessAI.minRun
          (fun b m => (ChessAI.minimax R d (R.push board m) alpha b true).1)
          alpha beta (R.legalMoves board)) := by
  obtain ⟨m0, ms0, hms⟩ : ∃ m ms, R.legalMoves board = m :: ms := by
    cases hl : R.legalMoves board with
    | nil => exact absurd hl (R.over_moves board hov)
    | cons a l => exact ⟨a, l, rfl⟩
  have hovf : ¬ R.isGameOver board = true := by rw [hov]; exact Bool.false_ne_true
  constructor
  · have hbot : ⊥ < listMax ((ChessAI.maxRun
        (fun a m => (ChessAI.minimax R d (R.push board m) a beta false).1)
        beta alpha (R.legalMoves board)).map Prod.snd) := by
      rw [hms]
      have hmem := maxRun_head_mem
        (fun a m => (ChessAI.minimax R d (R.push board m) a beta false).1) beta alpha m0 ms0
      have hmem2 := List.mem_map_of_mem Prod.snd hmem
      obtain ⟨n, hn⟩ := minimax_fst_ofInt R d (R.push board m0) alpha beta false
      refine lt_of_lt_of_le ?_ (le_listMax_of_mem hmem2)
      show (⊥ : Score) < (ChessAI.minimax R d (R.push board m0) alpha beta false).1
      rw [hn]
      exact Score.bot_lt_ofInt n
    simp only [ChessAI.minimax, if_neg hovf]
    rw [if_pos trivial, maxLoop_run]
    show _ = (_, _)
    rw [max_eq_right bot_le, if_neg (not_le.mpr hbot)]
  · have htop : listMin ((ChessAI.minRun
        (fun b m => (ChessAI.minimax R d (R.push board m) alpha b true).1)
        alpha beta (R.legalMoves board)).map Prod.snd) < ⊤ := by
      rw [hms]
      have hmem := minRun_head_mem
        (fun b m => (ChessAI.minimax R d (R.push board m) alpha b true).1) alpha beta m0 ms0
      have hmem2 := List.mem_map_of_mem Prod.snd hmem
      obtain ⟨n, hn⟩ := minimax_fst_ofInt R d (R.push board m0) alpha beta true
      refine lt_of_le_of_lt (listMin_le_of_mem hmem2) ?_
      show (ChessAI.minimax R d (R.push board m0) alpha beta true).1 < (⊤ : Score)
      rw [hn]
      exact Score.ofInt_lt_top n
    simp only [ChessAI.minimax, if_neg hovf]
    rw [if_neg (by simp : ¬ (false = true)), minLoop_run]
    show _ = (_, _)
    rw [min_eq_right le_top, if_neg (not_le.mpr htop)]

theorem isEmpty_eq_true_iff {α : Type} (l : List α) : l.isEmpty = true ↔ l = [] := by
  cases l <;> simp

theorem bang_isEmpty_eq_true {α : Type} {l : List α} (h : l ≠ []) : (!l.isEmpty) = true := by
  cases l with
  | nil => exact absurd rfl h
  | cons a t => rfl

/-- C6: the heuristic mover returns a capturing move whenever a legal
capture exists; otherwise a move to one of the four center squares when
one exists; otherwise some legal move; and it returns none exactly when
the position has no legal moves.  (It is a straight-line selection: it
never recurses and never consults `evaluate_board`.) -/
theorem c6_heuristic_mover_spec {Pos Move Square : Type} [DecidableEq Square]
    (R : Rules Pos Move Square) (choose : List Move → Option Move)
    (hch : ∀ l : List Move, l ≠ [] → ∃ m, choose l = some m ∧ m ∈ l) (board : Pos) :
    ((R.legalMoves board).filter (fun m => R.isCapture board m) ≠ [] →
      ∃ m, ChessAI.get_random_good_move R choose board = some m ∧
        m ∈ (R.legalMoves board).filter (fun m => R.isCapture board m)) ∧
    ((R.legalMoves board).filter (fun m => R.isCapture board m) = [] →
      (R.legalMoves board).filter
        (fun m => decide (R.toSquare m ∈ [R.d4, R.e4, R.d5, R.e5])) ≠ [] →
      ∃ m, ChessAI.get_random_good_move R choose board = some m ∧
        m ∈ (R.legalMoves board).filter
          (fun m => decide (R.toSquare m ∈ [R.d4, R.e4, R.d5, R.e5]))) ∧
    ((R.legalMoves board).filter (fun m => R.isCapture board m) = [] →
      (R.legalMoves board).filter
        (fun m => decide (R.toSquare m ∈ [R.d4, R.e4, R.d5, R.e5])) = [] →
      R.legalMoves board ≠ [] →
      ∃ m, ChessAI.get_random_good_move R choose board = some m ∧
        m ∈ R.legalMoves board) ∧
    (ChessAI.get_random_good_move R choose board = none ↔ R.legalMoves board = []) := by
  refine ⟨?_, ?_, ?_, ?_, ?_⟩
  · intro hcap
    obtain ⟨m, hm, hmem⟩ := hch _ hcap
    refine ⟨m, ?_, hmem⟩
    simp only [ChessAI.get_random_good_move]
    rw [if_pos (bang_isEmpty_eq_true hcap)]
    exact hm
  · intro hcap hcen
    obtain ⟨m, hm, hmem⟩ := hch _ hcen
    refine ⟨m, ?_, hmem⟩
    simp only [ChessAI.get_random_good_move]
    rw [hcap, if_neg (by simp), if_pos (bang_isEmpty_eq_true hcen)]
    exact hm
  · intro hcap hcen hleg
    obtain ⟨m, hm, hmem⟩ := hch _ hleg
    refine ⟨m, ?_, hmem⟩
    simp only [ChessAI.get_random_good_move]
    rw [hcap, if_neg (by simp), hcen, if_neg (by simp),
      if_pos (bang_isEmpty_eq_true hleg)]
    exact hm
  · intro hres
    by_contra hleg
    by_cases hcap : (R.legalMoves board).filter (fun m => R.isCapture board m) = []
    · by_cases hcen : (R.legalMoves board).filter
          (fun m => decide (R.toSquare m ∈ [R.d4, R.e4, R.d5, R.e5])) = []
      · obtain ⟨m, hm, _⟩ := hch _ hleg
        simp only [ChessAI.get_random_good_move] at hres
        rw [hcap, if_neg (by simp), hcen, if_neg (by simp),
          if_pos (bang_isEmpty_eq_true hleg), hm] at hres
        cases hres
      · obtain ⟨m, hm, _⟩ := hch _ hcen
        simp only [ChessAI.get_random_good_move] at hres
        rw [hcap, if_neg (by simp), if_pos (bang_isEmpty_eq_true hcen), hm] at hres
        cases hres
    · obtain ⟨m, hm, _⟩ := hch _ hcap
      simp only [ChessAI.get_random_good_move] at hres
      rw [if_pos (bang_isEmpty_eq_true hcap), hm] at hres
      cases hres
  · intro hleg
    simp [ChessAI.get_random_good_move, hleg]

/-- C3: `get_best_move` with difficulty 1 delegates to the heuristic
mover; with difficulty at least 2 it consults the search at depth
`difficulty + 1`, window `(-inf, +inf)`, and maximizing exactly when
White is to move; it returns the search's move when there is one, falls
back to some legal move when the search reports no move and legal moves
exist, and returns no move when none exist. -/
theorem c3_get_best_move_dispatch {Pos Move Square : Type} [DecidableEq Square]
    (R : Rules Pos Move Square) (choose : List Move → Option Move)
    (hch : ∀ l : List Move, l ≠ [] → ∃ m, choose l = some m ∧ m ∈ l)
    (board : Pos) (difficulty : ℤ) (fuel : Nat) :
    (difficulty = 1 →
      ChessAI.get_best_move R choose difficulty fuel board
        = some (ChessAI.get_random_good_move R choose board)) ∧
    (2 ≤ difficulty →
      ∀ r, ChessAI.minimaxI R fuel board (difficulty + 1) ⊥ ⊤ (R.turn board) = some r →
        ((∀ m, r.2 = some m →
            ChessAI.get_best_move R choose difficulty fuel board = some (some m)) ∧
         (r.2 = none → R.legalMoves board ≠ [] →
            ∃ m ∈ R.legalMoves board,
              ChessAI.get_best_move R choose difficulty fuel board = some (some m)) ∧
         (r.2 = none → R.legalMoves board = [] →
            ChessAI.get_best_move R choose difficulty fuel board = some none))) := by
  constructor
  · intro h1
    simp only [ChessAI.get_best_move, if_pos h1]
  · intro h2 r hr
    have hne1 : ¬ difficulty = 1 := by omega
    refine ⟨?_, ?_, ?_⟩
    · intro m hm
      obtain ⟨s, mv⟩ := r
      have hmv : mv = some m := hm
      subst hmv
      simp only [ChessAI.get_best_move, if_neg hne1, hr]
    · intro hm hleg
      obtain ⟨s, mv⟩ := r
      have hmv : mv = none := hm
      subst hmv
      obtain ⟨m, hcm, hmem⟩ := hch _ hleg
      refine ⟨m, hmem, ?_⟩
      simp only [ChessAI.get_best_move, if_neg hne1, hr]
      show some (if (R.legalMoves board).isEmpty then none
        else choose (R.legalMoves board)) = some (some m)
      rw [if_neg (fun hc => hleg ((isEmpty_eq_true_iff _).mp hc)), hcm]
    · intro hm hleg
      obtain ⟨s, mv⟩ := r
      have hmv : mv = none := hm
      subst hmv
      simp only [ChessAI.get_best_move, if_neg hne1, hr]
      show some (if (R.legalMoves board).isEmpty then none
        else choose (R.legalMoves board)) = some none
      rw [if_pos ((isEmpty_eq_true_iff _).mpr hleg)]

theorem minimax_gameOver {Pos Move Square : Type} (R : Rules Pos Move Square)
    (d : Nat) (board : Pos) (alpha beta : Score) (mz : Bool)
    (hov : R.isGameOver board = true) :
    ChessAI.minimax R d board alpha beta mz
      = (Score.ofInt (ChessAI.evaluate_board R board), none) := by
  cases d with
  | zero => rfl
  | succ d => simp only [ChessAI.minimax, if_pos hov]

theorem get_best_move_search {Pos Move Square : Type} [DecidableEq Square]
    (R : Rules Pos Move Square) (choose : List Move → Option Move)
    (board : Pos) (k fuel : Nat) (hf : k + 4 ≤ fuel) :
    ChessAI.get_best_move R choose ((k : ℤ) + 2) fuel board
      = (match (ChessAI.minimax R (k+3) board ⊥ ⊤ (R.turn board)).2 with
         | some m => some (some m)
         | none => some (if (R.legalMoves board).isEmpty then none
             else choose (R.legalMoves board))) := by
  have hne1 : ¬((k : ℤ) + 2 = 1) := by omega
  have hcast : (k : ℤ) + 2 + 1 = ((k + 3 : ℕ) : ℤ) := by push_cast; ring
  have hbr := minimaxI_eq_minimax R (k+3) fuel (by omega) board ⊥ ⊤ (R.turn board)
  simp only [ChessAI.get_best_move, if_neg hne1, hcast, hbr]
  cases hsm : ChessAI.minimax R (k+3) board ⊥ ⊤ (R.turn board) with
  | mk s mv => cases mv <;> rfl

theorem maxLoop_single {Move : Type} (child : Score → Move → Score) (beta alpha : Score)
    (m : Move) (h : ⊥ < child alpha m) :
    ChessAI.maxLoop child beta alpha [m] ⊥ none = (child alpha m, some m) := by
  simp only [ChessAI.maxLoop, if_pos h]
  split <;> rfl

theorem minLoop_single {Move : Type} (child : Score → Move → Score) (alpha beta : Score)
    (m : Move) (h : child beta m < ⊤) :
    ChessAI.minLoop child alpha beta [m] ⊤ none = (child beta m, some m) := by
  simp only [ChessAI.minLoop, if_pos h]
  split <;> rfl

theorem minimax_single_max {Pos Move Square : Type} (R : Rules Pos Move Square)
    (d : Nat) (board : Pos) (m : Move)
    (hov : R.isGameOver board = false) (hone : R.legalMoves board = [m]) :
    ChessAI.minimax R (d+1) board ⊥ ⊤ true
      = ((ChessAI.minimax R d (R.push board m) ⊥ ⊤ false).1, some m) := by
  simp only [ChessAI.minimax, if_neg (Bool.eq_false_iff.mp hov)]
  rw [if_pos trivial, hone]
  obtain ⟨n, hn⟩ := minimax_fst_ofInt R d (R.push board m) ⊥ ⊤ false
  exact maxLoop_single _ ⊤ ⊥ m (by rw [hn]; exact Score.bot_lt_ofInt n)

theorem minimax_single_min {Pos Move Square : Type} (R : Rules Pos Move Square)
    (d : Nat) (board : Pos) (m : Move)
    (hov : R.isGameOver board = false) (hone : R.legalMoves board = [m]) :
    ChessAI.minimax R (d+1) board ⊥ ⊤ false
      = ((ChessAI.minimax R d (R.push board m) ⊥ ⊤ true).1, some m) := by
  simp only [ChessAI.minimax, if_neg (Bool.eq_false_iff.mp hov)]
  rw [if_neg (by simp : ¬ (false = true)), hone]
  obtain ⟨n, hn⟩ := minimax_fst_ofInt R d (R.push board m) ⊥ ⊤ true
  exact minLoop_single _ ⊥ ⊤ m (by rw [hn]; exact Score.ofInt_lt_top n)

/-- C8: on a position with exactly one legal move, `get_best_move`
returns that move at every difficulty level — the difficulty-1 heuristic
path and every search difficulty ≥ 2. -/
theorem c8_single_move {Pos Move Square : Type} [DecidableEq Square]
    (R : Rules Pos Move Square) (choose : List Move → Option Move)
    (hch : ∀ l : List Move, l ≠ [] → ∃ m', choose l = some m' ∧ m' ∈ l)
    (board : Pos) (m : Move) (hone : R.legalMoves board = [m]) :
    (∀ fuel, ChessAI.get_best_move R choose 1 fuel board = some (some m)) ∧
    (∀ (k fuel : Nat), k + 4 ≤ fuel →
      ChessAI.get_best_move R choose ((k : ℤ) + 2) fuel board = some (some m)) := by
  have hsingle : choose [m] = some m := by
    obtain ⟨m', hm', hmem⟩ := hch [m] (by simp)
    obtain rfl := List.mem_singleton.mp hmem
    exact hm'
  have hheur : ChessAI.get_random_good_move R choose board = some m := by
    simp only [ChessAI.get_random_good_move, hone]
    by_cases hc : R.isCapture board m = true
    · rw [show List.filter (fun mv => R.isCapture board mv) [m] = [m] from by
        simp [List.filter_cons, hc],
        if_pos (show (!([m] : List Move).isEmpty) = true from rfl)]
      exact hsingle
    · have hcf : R.isCapture board m = false := Bool.eq_false_iff.mpr hc
      rw [show List.filter (fun mv => R.isCapture board mv) [m] = [] from by
        simp [List.filter_cons, hcf], if_neg (by simp)]
      by_cases hcen : decide (R.toSquare m ∈ [R.d4, R.e4, R.d5, R.e5]) = true
      · rw [show List.filter
            (fun mv => decide (R.toSquare mv ∈ [R.d4, R.e4, R.d5, R.e5])) [m] = [m] from by
          simp only [List.filter_cons, hcen, if_pos trivial, List.filter_nil],
          if_pos (show (!([m] : List Move).isEmpty) = true from rfl)]
        exact hsingle
      · have hcenf := Bool.eq_false_iff.mpr hcen
        have hcen_nil : List.filter
            (fun mv => decide (R.toSquare mv ∈ [R.d4, R.e4, R.d5, R.e5])) [m] = [] := by
          simp only [List.filter_cons, List.filter_nil, hcenf]
          simp
        rw [hcen_nil, if_neg (by simp),
          if_pos (show (!([m] : List Move).isEmpty) = true from rfl)]
        exact hsingle
  constructor
  · intro fuel
    simp only [ChessAI.get_best_move]
    rw [hheur]
    simp
  · intro k fuel hf
    rw [get_best_move_search R choose board k fuel hf]
    by_cases hov : R.isGameOver board = true
    · rw [minimax_gameOver R (k+3) board ⊥ ⊤ (R.turn board) hov]
      show some (if (R.legalMoves board).isEmpty then none
        else choose (R.legalMoves board)) = some (some m)
      rw [hone, if_neg (by simp), hsingle]
    · have hov' : R.isGameOver board = false := Bool.eq_false_iff.mpr hov
      cases ht : R.turn board with
      | true =>
        rw [show ChessAI.minimax R (k+3) board ⊥ ⊤ true
            = ((ChessAI.minimax R (k+2) (R.push board m) ⊥ ⊤ false).1, some m) from
          minimax_single_max R (k+2) board m hov' hone]
      | false =>
        rw [show ChessAI.minimax R (k+3) board ⊥ ⊤ false
            = ((ChessAI.minimax R (k+2) (R.push board m) ⊥ ⊤ true).1, some m) from
          minimax_single_min R (k+2) board m hov' hone]

/-- C9: at every depth ≥ 1 on a non-terminal position the search returns
a finite score (never ±inf) and a move; consequently, for search
difficulties (≥ 2, with enough fuel for the model), the random fallback
in `get_best_move` can only be reached when the root itself is terminal,
and `get_best_move` reports no move exactly when the position has no
legal moves. -/
theorem c9_nonterminal_finite_some {Pos Move Square : Type} [DecidableEq Square]
    (R : Rules Pos Move Square) (choose : List Move → Option Move)
    (hch : ∀ l : List Move, l ≠ [] → ∃ m, choose l = some m ∧ m ∈ l) (board : Pos) :
    (R.isGameOver board = false →
      ∀ (d : Nat) (alpha beta : Score) (mz : Bool),
        (∃ n, (ChessAI.minimax R (d+1) board alpha beta mz).1 = Score.ofInt n) ∧
        (ChessAI.minimax R (d+1) board alpha beta mz).2.isSome) ∧
    (∀ (k fuel : Nat), k + 4 ≤ fuel →
      (ChessAI.get_best_move R choose ((k : ℤ) + 2) fuel board = some none ↔
        R.legalMoves board = [])) := by
  constructor
  · intro hov d alpha beta mz
    exact ⟨minimax_fst_ofInt R (d+1) board alpha beta mz,
      minimax_snd_isSome R d board alpha beta mz hov⟩
  · intro k fuel hf
    rw [get_best_move_search R choose board k fuel hf]
    constructor
    · intro hres
      rcases hsm : ChessAI.minimax R (k+3) board ⊥ ⊤ (R.turn board) with ⟨s, mv⟩
      rw [hsm] at hres
      cases mv with
      | some m' => simp at hres
      | none =>
        by_contra hleg
        obtain ⟨m, hm, _⟩ := hch _ hleg
        change some (if (R.legalMoves board).isEmpty then none
          else choose (R.legalMoves board)) = some none at hres
        rw [if_neg (fun hc => hleg ((isEmpty_eq_true_iff _).mp hc)), hm] at hres
        simp at hres
    · intro hleg
      have hov : R.isGameOver board = true := by
        by_contra hc
        exact absurd hleg (R.over_moves board (Bool.eq_false_iff.mpr hc))
      rw [minimax_gameOver R (k+3) board ⊥ ⊤ (R.turn board) hov]
      show some (if (R.legalMoves board).isEmpty then none
        else choose (R.legalMoves board)) = some none
      rw [if_pos ((isEmpty_eq_true_iff _).mpr hleg)]

/-- C10 (amended): `get_best_move` treats every difficulty other than
exactly 1 as a search difficulty with depth `difficulty + 1` (so
difficulty 0 performs a depth-1 search rather than using the heuristic
mover).  Difficulty -1 gives depth 0, where the search immediately
returns the static evaluation with no move.  For difficulty ≤ -2 the
depth is negative: the `depth == 0` test never fires, the search keeps
recursing until game-over positions, and whenever it completes on a
non-terminal root it returns a move — not the static evaluation's
no-move result. -/
theorem c10_amended_dispatch {Pos Move Square : Type} [DecidableEq Square]
    (R : Rules Pos Move Square) (choose : List Move → Option Move)
    (board : Pos) (fuel : Nat) (difficulty : ℤ) (alpha beta : Score) (mz : Bool) :
    (difficulty = 1 →
      ChessAI.get_best_move R choose difficulty fuel board
        = some (ChessAI.get_random_good_move R choose board)) ∧
    (difficulty ≠ 1 →
      ChessAI.get_best_move R choose difficulty fuel board
        = (match ChessAI.minimaxI R fuel board (difficulty + 1) ⊥ ⊤ (R.turn board) with
           | none => none
           | some (_, some m) => some (some m)
           | some (_, none) =>
             some (if (R.legalMoves board).isEmpty then none
               else choose (R.legalMoves board)))) ∧
    (ChessAI.minimaxI R (fuel+1) board 0 alpha beta mz
      = some (Score.ofInt (ChessAI.evaluate_board R board), none)) ∧
    (∀ d : ℤ, d < 0 → R.isGameOver board = false →
      ∀ r, ChessAI.minimaxI R fuel board d alpha beta mz = some r → r.2.isSome) := by
  refine ⟨?_, ?_, ?_, ?_⟩
  · intro h1
    simp only [ChessAI.get_best_move, if_pos h1]
  · intro h1
    simp only [ChessAI.get_best_move, if_neg h1]
  · simp only [ChessAI.minimaxI]
    rw [if_pos (Or.inl trivial)]
  · intro d hd hov r hr
    refine (minimaxI_inv R fuel board d alpha beta mz r hr).2 ?_
    rintro (h0 | hgo)
    · omega
    · rw [hov] at hgo
      cases hgo

/-- C10 counterexample: with difficulty -2 the code calls the search at
depth -1.  On the concrete non-terminal toy root the `depth == 0` test
never fires; the search recurses down to game-over leaves and returns
their minimax value together with a move — not the static evaluation's
no-move result that the claim predicts for every difficulty ≤ -1 (the
static evaluation here is 104, and the claimed result would carry no
move). -/
theorem c10_counterexample :
    ChessAI.minimaxI toyR 10 [] ((-2 : ℤ) + 1) ⊥ ⊤ (toyR.turn [])
        = some (Score.ofInt (-10000), some 0) ∧
    Score.ofInt (-10000) ≠ Score.ofInt (ChessAI.evaluate_board toyR []) ∧
    ChessAI.get_best_move toyR toyChoose (-2) 10 [] = some (some 0) := by
  refine ⟨by decide, by decide, by decide⟩

/-- Witness for the amended C10, at the concrete toy provider: the
difficulty -2 dispatch equation, the depth-0 static path, and the
negative-depth move guarantee, each instantiated and discharged. -/
theorem c10_amended_dispatch_witness :
    (ChessAI.get_best_move toyR toyChoose (-2) 10 []
      = (match ChessAI.minimaxI toyR 10 [] ((-2 : ℤ) + 1) ⊥ ⊤ (toyR.turn []) with
         | none => none
         | some (_, some m) => some (some m)
         | some (_, none) =>
           some (if (toyR.legalMoves []).isEmpty then none
             else toyChoose (toyR.legalMoves [])))) ∧
    (ChessAI.minimaxI toyR 10 [] 0 ⊥ ⊤ true
      = some (Score.ofInt (ChessAI.evaluate_board toyR []), none)) ∧
    ((Score.ofInt (-10000), some (0 : ℕ)).2.isSome = true) := by
  refine ⟨(c10_amended_dispatch toyR toyChoose [] 10 (-2) ⊥ ⊤ true).2.1 (by decide),
    (c10_amended_dispatch toyR toyChoose [] 9 (-2) ⊥ ⊤ true).2.2.1,
    (c10_amended_dispatch toyR toyChoose [] 10 (-2) ⊥ ⊤ true).2.2.2
      (-1) (by decide) (by decide) (Score.ofInt (-10000), some 0) (by decide)⟩

/-- Witness for C2 at the toy provider: a checkmated position with White
to move evaluates to -10000, and a quiet position evaluates to the
material-plus-mobility formula (here 98). -/
theorem c2_evaluate_board_spec_witness :
    ChessAI.evaluate_board toyR [0, 0] = -10000 ∧
    ChessAI.evaluate_board toyR [0] = 98 := by
  constructor
  · exact (c2_evaluate_board_spec toyR [0, 0]).1 (by decide) (by decide)
  · have h := (c2_evaluate_board_spec toyR [0]).2.2.2 (by decide) (by decide) (by decide)
    rw [h]
    decide

/-- Witness for C3 at the toy provider: difficulty 2 searches at depth 3
and returns the search's move. -/
theorem c3_get_best_move_dispatch_witness :
    ChessAI.get_best_move toyR toyChoose 2 5 [] = some (some 0) :=
  ((c3_get_best_move_dispatch toyR toyChoose toyChoose_valid [] 2 5).2
    (by decide) (Score.ofInt (-10000), some 0) (by decide)).1 0 rfl

/-- Witness for C4 at the toy provider: on a game-over position the
search at depth 5 returns the static evaluation and no move. -/
theorem c4_search_leaf_witness :
    ChessAI.minimax toyR 5 [0, 0] ⊥ ⊤ true
      = (Score.ofInt (ChessAI.evaluate_board toyR [0, 0]), none) :=
  c4_search_leaf toyR 5 [0, 0] ⊥ ⊤ true (Or.inr (Or.inr (Or.inr (Or.inr (by decide)))))

/-- Witness for C5 at the toy provider: the depth-3 root search equals
the best-of-run characterization (first move achieving the best). -/
theorem c5_first_best_move_witness :
    ChessAI.minimax toyR 3 [] ⊥ ⊤ true
      = ChessAI.bestOfRun (ChessAI.maxRun
          (fun a m => (ChessAI.minimax toyR 2 (toyR.push [] m) a ⊤ false).1)
          ⊤ ⊥ (toyR.legalMoves [])) :=
  (c5_first_best_move toyR 2 [] ⊥ ⊤ (by decide)).1

/-- Witness for C6 at the toy provider: the root has a legal capture and
the heuristic mover returns a capturing move. -/
theorem c6_heuristic_mover_spec_witness :
    ∃ m, ChessAI.get_random_good_move toyR toyChoose [] = some m ∧
      m ∈ (toyR.legalMoves []).filter (fun mv => toyR.isCapture [] mv) :=
  (c6_heuristic_mover_spec toyR toyChoose toyChoose_valid []).1 (by decide)

/-- Witness for C8 at the toy provider: the position `[0]` has exactly
one legal move (`0`), and both the difficulty-1 path and the
difficulty-2 search return it. -/
theorem c8_single_move_witness :
    ChessAI.get_best_move toyR toyChoose 1 0 [0] = some (some 0) ∧
    ChessAI.get_best_move toyR toyChoose 2 4 [0] = some (some 0) := by
  have h := c8_single_move toyR toyChoose toyChoose_valid [0] 0 (by decide)
  exact ⟨h.1 0, h.2 0 4 (by decide)⟩

/-- Witness for C9 at the toy provider: the non-terminal root search at
depth 3 returns a move, and `get_best_move` at difficulty 2 does not
report "no move" since legal moves exist. -/
theorem c9_nonterminal_finite_some_witness :
    (ChessAI.minimax toyR 3 [] ⊥ ⊤ true).2.isSome = true ∧
    ChessAI.get_best_move toyR toyChoose 2 4 [] ≠ some none := by
  constructor
  · exact ((c9_nonterminal_finite_some toyR toyChoose toyChoose_valid []).1
      (by decide) 2 ⊥ ⊤ true).2
  · intro h
    have h2 := ((c9_nonterminal_finite_some toyR toyChoose toyChoose_valid []).2
      0 4 (by decide)).mp h
    exact absurd h2 (by decide)
